import Mathlib

/-!
Shallow embedding of the core transcript pipeline of the YouTube transcript
tool (Next.js route `src/app/api/transcript/route.ts` and the client page
`src/app/page.tsx`), together with proofs about it.

Conventions of the embedding:
* JS strings are Lean `String`s; JS string arrays are `List String`.
* JS numbers holding second offsets (floats) are modelled as `ℚ`.
* JS code that can throw is modelled with `Option`/`Except`.
* External effects (network fetches, the Anthropic backend, the SSE
  transport, the platform URL parser) are parameters of the embedded
  functions: the embedding keeps exactly the control flow the route
  performs on their results.
-/

namespace TranscriptTool

/-! Shared string helpers. -/

/-- Whitespace class used by the JS regexes `/\s+/` and by `String.trim`
(restricted to the ASCII members, which are the only ones the pipeline's
data can contain). -/
def isWs (c : Char) : Bool :=
  c = ' ' || c = '\t' || c = '\n' || c = '\r' || c = Char.ofNat 12 || c = Char.ofNat 11

/-- Scanner for `splitWs`.  The first argument is the state: `some cur`
means a word (reversed characters `cur`) is being accumulated, `none` means
the scanner is inside a whitespace run that has already ended a word.
Splitting is on maximal whitespace runs, exactly as the JS
`text.split(/\s+/)`: a leading run produces a leading empty word, a
trailing run a trailing empty word, and the empty string yields `[""]`. -/
def splitWsGo : Option (List Char) → List Char → List String
  | none, [] => [""]
  | some cur, [] => [String.mk cur.reverse]
  | none, c :: rest =>
    if isWs c then splitWsGo none rest else splitWsGo (some [c]) rest
  | some cur, c :: rest =>
    if isWs c then String.mk cur.reverse :: splitWsGo none rest
    else splitWsGo (some (c :: cur)) rest

/-- Model of the JS `text.split(/\s+/)`. -/
def splitWs (s : String) : List String :=
  splitWsGo (some []) s.data

/-- Model of the JS `parts.join(sep)` on an array of strings. -/
def jsJoin (sep : String) : List String → String
  | [] => ""
  | [s] => s
  | s :: rest => s ++ sep ++ jsJoin sep rest

/-- Model of the JS `text.replace(/\n/g, " ")`. -/
def replaceNl (s : String) : String :=
  String.mk (s.data.map (fun c => if c = '\n' then ' ' else c))

/-- Model of the JS `s.trim()` (ASCII whitespace members, as in `isWs`). -/
def jsTrim (s : String) : String :=
  String.mk (((s.data.dropWhile isWs).reverse.dropWhile isWs).reverse)

/-! The chunker (`chunkWords` in the route). -/

/-- Word groups built by the loop in `chunkWords`
(`for (let i = 0; i < words.length; i += wordsPerChunk) chunks.push(words.slice(i, i + wordsPerChunk) ...)`).
For `n ≥ 1`, `slice(i, i + n)` of the remaining words `w :: ws` is
`w :: ws.take (n - 1)`, and the loop continues from `ws.drop (n - 1)`.
(For `n = 0` the JS loop would not terminate; the route only ever calls
this with `n = 3000`.) -/
def chunkGroups (n : Nat) : List String → List (List String)
  | [] => []
  | w :: ws => (w :: ws.take (n - 1)) :: chunkGroups n (ws.drop (n - 1))
termination_by ws => ws.length
decreasing_by
  simp only [List.length_cons]
  have h := List.length_drop (n - 1) ws
  omega

/-- Model of `chunkWords` from the route: split on whitespace, group into
`wordsPerChunk`-sized groups, re-join each group with single spaces. -/
def chunkWords (text : String) (wordsPerChunk : Nat) : List String :=
  (chunkGroups wordsPerChunk (splitWs text)).map (fun g => jsJoin " " g)

/-! Raw-text assembly with timecode markers (`buildRawText`,
`formatTimecodeMarker` in the route). -/

/-- One caption cue as produced by the transcript adapters
(`TranscriptItem` in the route); offsets and durations are seconds. -/
structure TranscriptItem where
  text : String
  duration : ℚ
  offset : ℚ
deriving DecidableEq

/-- Result of `buildRawText`. -/
structure RawText where
  text : String
  hasTimecodes : Bool
deriving DecidableEq

/-- Decimal digit character, as produced by the JS number-to-string
conversion (`String(n)`); only ever applied to `d < 10`. -/
def digitChar (d : Nat) : Char :=
  Char.ofNat (48 + d)

/-- Fueled digit loop for `natToString`; emits the decimal digits of `n`
in front of `acc`.  The fuel is only a termination device. -/
def natToStringGo : Nat → Nat → List Char → List Char
  | 0, _, acc => acc
  | fuel + 1, n, acc =>
    if n < 10 then digitChar (n % 10) :: acc
    else natToStringGo fuel (n / 10) (digitChar (n % 10) :: acc)

/-- Model of the JS `String(n)` for a nonnegative number.  A fuel of
`n + 1` always suffices, since `n` has at most `n + 1` decimal digits. -/
def natToString (n : Nat) : String :=
  String.mk (natToStringGo (n + 1) n [])

/-- Model of the JS `String(n)` for an integer. -/
def intToString (n : Int) : String :=
  if n < 0 then "-" ++ natToString n.natAbs else natToString n.toNat

/-- Model of the JS `s.padStart(2, "0")`. -/
def padStart2 (s : String) : String :=
  if s.length = 0 then "00" else if s.length = 1 then "0" ++ s else s

/-- Model of `formatTimecodeMarker` from the route: floor the offset to
whole seconds, then render `[M:SS]` below one hour and `[H:MM:SS]` from
one hour on.  JS `Math.floor` on a quotient is `Int.fdiv`, the JS `%` on
integers is `Int.tmod` (these only differ from the `Nat` operations on
negative inputs, which the route never produces). -/
def formatTimecodeMarker (totalSeconds : ℚ) : String :=
  let s : Int := ⌊totalSeconds⌋
  let h : Int := Int.fdiv s 3600
  let m : Int := Int.fdiv (Int.tmod s 3600) 60
  let sec : Int := Int.tmod s 60
  if 0 < h then
    "[" ++ intToString h ++ ":" ++ padStart2 (intToString m) ++ ":" ++
      padStart2 (intToString sec) ++ "]"
  else
    "[" ++ intToString m ++ ":" ++ padStart2 (intToString sec) ++ "]"

/-- Spec-side form of the marker (§4.3 of the spec, for the nonnegative
whole-second value `s`): format `[M:SS]` when the represented hour
component is zero, else `[H:MM:SS]`, seconds and minutes zero-padded to
two digits.  `twoDigitSpec` below renders a value below 100 as exactly two
digits. -/
def twoDigitSpec (n : Nat) : String :=
  String.mk [digitChar (n / 10), digitChar (n % 10)]

/-- Spec-side marker format (see `twoDigitSpec`). -/
def markerSpec (s : Nat) : String :=
  if s / 3600 = 0 then
    "[" ++ natToString (s % 3600 / 60) ++ ":" ++ twoDigitSpec (s % 60) ++ "]"
  else
    "[" ++ natToString (s / 3600) ++ ":" ++ twoDigitSpec (s % 3600 / 60) ++ ":" ++
      twoDigitSpec (s % 60) ++ "]"

/-- The timing-data test of `buildRawText`:
`items.length > 1 && items.some((i) => i.offset > 0)`. -/
def hasTimingData (items : List TranscriptItem) : Bool :=
  decide (1 < items.length) && items.any (fun i => decide ((0 : ℚ) < i.offset))

/-- The marker-interleaving loop of `buildRawText`: `lastMarkerAt` starts
at `-61`; a marker is pushed for a cue whenever
`item.offset - lastMarkerAt >= 60`, then the cue's newline-stripped,
trimmed text is pushed when nonempty. -/
def rawParts : ℚ → List TranscriptItem → List String
  | _, [] => []
  | lastMarkerAt, item :: rest =>
    if 60 ≤ item.offset - lastMarkerAt then
      let t := jsTrim (replaceNl item.text)
      formatTimecodeMarker item.offset ::
        (if t = "" then rawParts item.offset rest else t :: rawParts item.offset rest)
    else
      let t := jsTrim (replaceNl item.text)
      if t = "" then rawParts lastMarkerAt rest else t :: rawParts lastMarkerAt rest

/-- Model of `buildRawText` from the route. -/
def buildRawText (items : List TranscriptItem) : RawText :=
  if hasTimingData items then
    { text := jsJoin " " (rawParts (-61) items), hasTimecodes := true }
  else
    { text := jsJoin " " (items.map (fun i => replaceNl i.text)), hasTimecodes := false }

/-- Offsets at which the loop of `buildRawText` emits a marker (the
successive values taken by `lastMarkerAt`), extracted from `rawParts` for
reasoning about marker counts. -/
def markerOffsets : ℚ → List ℚ → List ℚ
  | _, [] => []
  | last, o :: os =>
    if 60 ≤ o - last then o :: markerOffsets o os else markerOffsets last os

/-- Number of `[` characters of a string: each timecode marker contributes
exactly one, and cue text that itself contains no `[` contributes none, so
for bracket-free cues this counts the markers embedded in the text. -/
def countBr (s : String) : Nat :=
  s.data.count '['

/-! The acquisition orchestrator (`fetchTranscript` in the route). -/

/-- Error codes of the primary (Supadata) provider's `SupadataError` that
the orchestrator distinguishes; every code other than
`transcript-unavailable` and `not-found` (upgrade-required, limit-exceeded,
auth and other errors) is collapsed into `otherCode`, since the
orchestrator treats them all alike. -/
inductive SupadataErrorKind where
  | transcriptUnavailable
  | notFound
  | otherCode
deriving DecidableEq

/-- The route's error taxonomy: a `SupadataError` with its code, or one of
the route's own error classes (`VideoUnavailableError`,
`TranscriptsDisabledError`, `TranscriptsNotAvailableError`,
`IpBlockedError`, `PoTokenRequiredError`), or an arbitrary other thrown
error carrying its message. -/
inductive FetchError where
  | supadata (kind : SupadataErrorKind)
  | videoUnavailable
  | transcriptsDisabled
  | transcriptsNotAvailable
  | ipBlocked
  | poTokenRequired
  | unknown (msg : String)
deriving DecidableEq

/-- Video metadata (`VideoMeta` in the route). -/
structure VideoMeta where
  title : String
  durationSeconds : ℤ
deriving DecidableEq

/-- Result of a transcript acquisition: cues plus the metadata the Android
fallback path incidentally scrapes. -/
structure FetchOk where
  items : List TranscriptItem
  meta : Option VideoMeta
deriving DecidableEq

/-- Model of the orchestrator `fetchTranscript`.  The outcomes of the two
adapters are passed in (`primary` is `fetchViaSupadata`, `fallback` is
`fetchViaAndroid`); the second component counts how many times the
fallback adapter was invoked, so that the fallback policy is visible in
the result.  The control flow mirrors the route exactly: with no
configured key the fallback runs directly; a primary success returns its
items (no metadata); a primary `SupadataError` with code
`transcript-unavailable` or `not-found` maps to a terminal error; a
primary `TranscriptsDisabledError` or `VideoUnavailableError` is
re-thrown; every other primary failure falls through to the fallback. -/
def fetchTranscript (supadataKey : Option String)
    (primary : Except FetchError (List TranscriptItem))
    (fallback : Except FetchError FetchOk) : Except FetchError FetchOk × Nat :=
  match supadataKey with
  | none => (fallback, 1)
  | some _ =>
    match primary with
    | .ok items => (.ok ⟨items, none⟩, 0)
    | .error (.supadata .transcriptUnavailable) => (.error .transcriptsDisabled, 0)
    | .error (.supadata .notFound) => (.error .videoUnavailable, 0)
    | .error (.supadata .otherCode) => (fallback, 1)
    | .error .transcriptsDisabled => (.error .transcriptsDisabled, 0)
    | .error .videoUnavailable => (.error .videoUnavailable, 0)
    | .error _ => (fallback, 1)

/-! The identifier resolver (`extractVideoId` in the route). -/

/-- The fields of a parsed WHATWG URL that `extractVideoId` consults.  The
platform's `new URL(url.trim())` parser itself is outside the repository;
it is abstracted as an `Option UrlParts` (with `none` for a string that
fails to parse, i.e. a thrown `TypeError`). -/
structure UrlParts where
  hostname : String
  pathname : String
  searchParams : List (String × String)

/-- Model of `u.searchParams.get(k)`: the value of the first parameter
named `k`, or `none` when absent. -/
def getSearchParam (ps : List (String × String)) (k : String) : Option String :=
  (ps.find? (fun p => p.1 == k)).map (fun p => p.2)

/-- Check that the first list starts the second. -/
def leadsWith : List Char → List Char → Bool
  | [], _ => true
  | _ :: _, [] => false
  | p :: ps, c :: cs => p == c && leadsWith ps cs

/-- Model of the JS `hay.includes(pat)` substring test. -/
def containsSub (pat : List Char) : List Char → Bool
  | [] => leadsWith pat []
  | c :: rest => leadsWith pat (c :: rest) || containsSub pat rest

/-- Model of `pathname.match(/\/embed\/([^/?]+)/)`, returning the first
capture: at the first position where `/embed/` occurs followed by at least
one character other than `/` and `?`, capture the maximal run of such
characters (the regex engine backtracks past occurrences whose capture
would be empty, as the scan below does). -/
def embedMatch : List Char → Option String
  | [] => none
  | c :: rest =>
    if leadsWith "/embed/".data (c :: rest) then
      let ident := ((c :: rest).drop 7).takeWhile (fun ch => !(ch == '/') && !(ch == '?'))
      if ident.isEmpty then embedMatch rest else some (String.mk ident)
    else embedMatch rest

/-- Model of `extractVideoId` from the route, applied to the result of the
(abstracted) URL parse.  `if (v)` in JS is false for the empty string, so
an empty `v` parameter falls through to the embed-path match. -/
def extractVideoId (parsed : Option UrlParts) : Option String :=
  match parsed with
  | none => none
  | some u =>
    if u.hostname == "youtu.be" then some (u.pathname.drop 1)
    else if containsSub "youtube.com".data u.hostname.data then
      match getSearchParam u.searchParams "v" with
      | some v => if v == "" then embedMatch u.pathname.data else some v
      | none => embedMatch u.pathname.data
    else none

/-! The chunk rewriter (`cleanChunk` in the route). -/

/-- One block of the Anthropic response's `content` array: either a
text-typed block or any non-text block (tool use etc.). -/
inductive ContentBlock where
  | text (s : String)
  | other
deriving DecidableEq

/-- Model of the response handling of `cleanChunk`
(`const content = message.content[0]; if (content.type !== "text") return chunk; return content.text.trim();`).
The backend's response content array is passed in.  On an empty array,
`message.content[0]` is `undefined` and reading `.type` throws a
`TypeError`; that crash is modelled as `none`.  The prompt construction
(positional context note, timecode instruction) does not affect the
returned value and is not modelled. -/
def cleanChunk (content : List ContentBlock) (chunk : String) : Option String :=
  match content with
  | [] => none
  | .text s :: _ => some (jsTrim s)
  | .other :: _ => some chunk

/-! The streaming route handler (`POST` in the route) and its event
protocol. -/

/-- The events the route emits on the SSE stream, with the payload fields
the protocol specifies. -/
inductive Event where
  | status (message : String)
  | meta (title : String) (durationSeconds : ℤ)
  | info (totalChunks : Nat) (wordCount : Nat) (hasTimecodes : Bool)
  | progress (current total : Nat)
  | chunk (index : Nat) (text : String)
  | done
  | error (message : String)
deriving DecidableEq

/-- The user-facing messages of the route's transcript-rejection branch. -/
def fetchErrorMessage : FetchError → String
  | .ipBlocked =>
      "YouTube is blocking this server\x27s requests. This is a known issue with cloud-hosted services — set SUPADATA_API_KEY to route around it."
  | .poTokenRequired =>
      "YouTube requires a verification token for this video\x27s transcript. Set SUPADATA_API_KEY to work around this."
  | .videoUnavailable =>
      "This video is unavailable (it may be private, deleted, or region-locked)."
  | .transcriptsDisabled =>
      "Transcripts are disabled for this video. The creator has turned off captions."
  | .transcriptsNotAvailable =>
      "No transcript is available for this video. It may not have auto-generated captions yet."
  | .supadata _ => "Could not fetch transcript: "
  | .unknown msg => "Could not fetch transcript: " ++ msg

/-- The per-chunk loop of `POST`: for each chunk, emit `progress` with the
1-indexed position, invoke the rewriter (whose outcome — the cleaned text,
or a thrown backend error caught by the outer catch with its user-facing
message — is the oracle `rewriter`), then emit `chunk` with the 0-based
index; after the last chunk, emit `done`.  A rewriter failure emits the
terminal `error` event instead. -/
def chunkLoop (rewriter : Nat → String → Bool → Bool → Bool → Except String String)
    (total : Nat) (htc : Bool) : Nat → List String → List Event
  | _, [] => [.done]
  | i, c :: cs =>
    .progress (i + 1) total ::
      match rewriter i c (i == 0) (i == total - 1) htc with
      | .error msg => [.error msg]
      | .ok t => .chunk i t :: chunkLoop rewriter total htc (i + 1) cs

/-- Model of the stream body of `POST` after the request was accepted:
the sequence of events sent over the stream, as a function of the settled
outcomes of the concurrent transcript fetch and metadata fetch and of the
rewriter oracle.  Mirrors the route: one `status`, then `meta` when either
source produced metadata (preferring the independent metadata fetch), then
either the terminal `error` for a failed or empty transcript, or `info`
followed by the per-chunk loop. -/
def runPOST (transcriptResult : Except FetchError FetchOk)
    (metaResult : Option VideoMeta)
    (rewriter : Nat → String → Bool → Bool → Bool → Except String String) : List Event :=
  let meta : Option VideoMeta :=
    match metaResult with
    | some m => some m
    | none =>
      match transcriptResult with
      | .ok r => r.meta
      | .error _ => none
  let metaEvents : List Event :=
    match meta with
    | some m => [.meta m.title m.durationSeconds]
    | none => []
  .status "Fetching transcript..." ::
    (metaEvents ++
      match transcriptResult with
      | .error e => [.error (fetchErrorMessage e)]
      | .ok r =>
        if r.items.isEmpty then
          [.error "This video does not have a transcript available."]
        else
          let rt := buildRawText r.items
          let chunks := chunkWords rt.text 3000
          .info chunks.length (splitWs rt.text).length rt.hasTimecodes ::
            chunkLoop rewriter chunks.length rt.hasTimecodes 0 chunks)

/-- States of the spec's event-order state machine (§4.6):
`status`* → `meta`? → `info` → (`progress` → `chunk`)×N in index order →
(`done` | `error`), with `error` allowed at any point, terminally. -/
inductive StreamState where
  | leading
  | metaSeen
  | streaming (next total : Nat)
  | chunkPending (idx total : Nat)
  | closed
deriving DecidableEq

/-- One transition of the spec's state machine; `none` means the event is
not permitted in the state.  `progress` must carry the 1-indexed position
of the next unprocessed chunk and the total; the following `chunk` must
carry the matching 0-based index; `done` is only permitted once all
chunks have been emitted; `error` is permitted in every non-terminal
state and closes the stream; nothing is permitted after `done`/`error`. -/
def specStep : StreamState → Event → Option StreamState
  | .leading, .status _ => some .leading
  | .leading, .meta _ _ => some .metaSeen
  | .leading, .info n _ _ => some (.streaming 0 n)
  | .leading, .error _ => some .closed
  | .metaSeen, .info n _ _ => some (.streaming 0 n)
  | .metaSeen, .error _ => some .closed
  | .streaming i n, .progress c t =>
      if c = i + 1 ∧ t = n then some (.chunkPending i n) else none
  | .streaming i n, .done => if i = n then some .closed else none
  | .streaming _ _, .error _ => some .closed
  | .chunkPending i n, .chunk j _ => if j = i then some (.streaming (i + 1) n) else none
  | .chunkPending _ _, .error _ => some .closed
  | _, _ => none

/-- Acceptance of an event sequence by the spec's state machine, starting
in `s`: every event must be permitted, and the sequence must end exactly
in the terminal state. -/
def accepts : StreamState → List Event → Bool
  | s, [] => decide (s = .closed)
  | s, e :: es =>
    match specStep s e with
    | some s2 => accepts s2 es
    | none => false

/-! The client's reassembly of `chunk` events (`page.tsx`:
`collectedChunks[event.index] = event.text;
setTranscript(collectedChunks.filter(Boolean).join("\n\n"))`). -/

/-- One `chunk`-event assignment into the sparse array. -/
def applyChunkEvent (arr : Nat → Option String) (i : Nat) (t : String) :
    Nat → Option String :=
  fun j => if j = i then some t else arr j

/-- The sparse array (`collectedChunks`) after a list of `chunk` events,
as a map from index to the assigned text (`none` = hole). -/
def chunkArray (events : List (Nat × String)) : Nat → Option String :=
  events.foldl (fun a p => applyChunkEvent a p.1 p.2) (fun _ => none)

/-- The JS array's `length` after the assignments: one past the largest
assigned index. -/
def arrayLen (events : List (Nat × String)) : Nat :=
  events.foldl (fun m p => max m (p.1 + 1)) 0

/-- Model of the client's rendering after a list of `chunk` events:
iterate the array in index order, drop holes and empty strings
(`filter(Boolean)` drops both), and join with a blank line. -/
def reassemble (events : List (Nat × String)) : String :=
  jsJoin "\n\n"
    (((List.range (arrayLen events)).filterMap (chunkArray events)).filter
      (fun s => !(s == "")))

/-! ### Theorems -/

/-! Basic facts about the chunker. -/

theorem chunkGroups_join (n : Nat) (ws : List String) :
    (chunkGroups n ws).flatten = ws := by
  induction ws using chunkGroups.induct n with
  | case1 => simp [chunkGroups]
  | case2 w ws ih =>
    simp only [chunkGroups, List.flatten_cons, ih]
    simp [List.take_append_drop]

theorem splitWsGo_ne_nil (st : Option (List Char)) (l : List Char) :
    splitWsGo st l ≠ [] := by
  induction l generalizing st with
  | nil => cases st <;> simp [splitWsGo]
  | cons c rest ih =>
    cases st with
    | none =>
      by_cases h : isWs c = true <;> simp [splitWsGo, h, ih]
    | some cur =>
      by_cases h : isWs c = true <;> simp [splitWsGo, h, ih]

theorem splitWs_ne_nil (s : String) : splitWs s ≠ [] :=
  splitWsGo_ne_nil (some []) s.data


/-! Inverse of splitting: re-splitting a space-joined word group of a split
result recovers the group.  These lemmas characterise the scanner's output
(words are whitespace-free; only the first and last word of a split can be
empty) and show the join-then-split inverse on any group with those
shapes. -/

theorem eq_empty_of_data_eq_nil (g : String) (h : g.data = []) : g = "" := by
  cases g with
  | mk l =>
    have hl : l = [] := h
    subst hl
    rfl

theorem dropLast_subset_cons (x : String) (t : List String) :
    t.dropLast ⊆ (x :: t).dropLast := by
  cases t with
  | nil => simp
  | cons y t2 =>
    rw [List.dropLast_cons₂]
    exact List.subset_cons_self _ _

theorem tail_dropLast_subset (l : List String) :
    l.tail.dropLast ⊆ l.dropLast := by
  cases l with
  | nil => simp
  | cons x t => exact dropLast_subset_cons x t

theorem dropLast_take_subset (l : List String) :
    ∀ k, (l.take k).dropLast ⊆ l.dropLast := by
  induction l with
  | nil => intro k; simp
  | cons x t ih =>
    intro k
    cases k with
    | zero => simp
    | succ k =>
      cases t with
      | nil => simp
      | cons z t2 =>
        rw [List.take_succ_cons]
        cases k with
        | zero => simp
        | succ k2 =>
          rw [List.take_succ_cons, List.dropLast_cons₂, List.dropLast_cons₂]
          apply List.cons_subset_cons
          have h := ih (k2 + 1)
          rw [List.take_succ_cons] at h
          exact h

theorem dropLast_drop_subset (l : List String) :
    ∀ k, (l.drop k).dropLast ⊆ l.dropLast := by
  induction l with
  | nil => intro k; simp
  | cons x t ih =>
    intro k
    cases k with
    | zero => exact fun a h => h
    | succ k =>
      rw [List.drop_succ_cons]
      exact (ih k).trans (dropLast_subset_cons x t)

theorem splitWsGo_consume (l : List Char) (hl : ∀ c ∈ l, isWs c = false) :
    ∀ cur rest, splitWsGo (some cur) (l ++ rest) = splitWsGo (some (l.reverse ++ cur)) rest := by
  induction l with
  | nil => intro cur rest; simp
  | cons c cs ih =>
    intro cur rest
    have hc : isWs c = false := hl c (List.mem_cons_self _ _)
    rw [List.cons_append, splitWsGo, if_neg (by simp [hc])]
    rw [ih (fun d hd => hl d (List.mem_cons_of_mem _ hd)) (c :: cur) rest]
    congr 1
    simp

theorem splitWsGo_word_end (w : String) (hw : ∀ c ∈ w.data, isWs c = false) :
    splitWsGo (some []) w.data = [w] := by
  have h := splitWsGo_consume w.data hw [] []
  rw [List.append_nil] at h
  rw [h, splitWsGo, List.append_nil, List.reverse_reverse]

theorem splitWsGo_none_word (g : String) (hg : g ≠ "")
    (hws : ∀ c ∈ g.data, isWs c = false) :
    ∀ rest, splitWsGo none (g.data ++ rest) =
      splitWsGo (some g.data.reverse) rest := by
  intro rest
  cases hd : g.data with
  | nil => exact absurd (eq_empty_of_data_eq_nil g hd) hg
  | cons c cs =>
    have hc : isWs c = false := hws c (by rw [hd]; exact List.mem_cons_self _ _)
    have hcs : ∀ d ∈ cs, isWs d = false := fun d hdm =>
      hws d (by rw [hd]; exact List.mem_cons_of_mem _ hdm)
    rw [List.cons_append, splitWsGo, if_neg (by simp [hc])]
    rw [splitWsGo_consume cs hcs [c] rest]
    congr 2
    rw [List.reverse_cons]

theorem splitWsGo_none_join (gs : List String) :
    gs ≠ [] → (∀ w ∈ gs, ∀ c ∈ w.data, isWs c = false) →
    (∀ w ∈ gs.dropLast, w ≠ "") →
    splitWsGo none (jsJoin " " gs).data = gs := by
  induction gs with
  | nil => intro h; contradiction
  | cons g rest ih =>
    intro _ hws hnemp
    cases rest with
    | nil =>
      show splitWsGo none g.data = [g]
      by_cases hge : g = ""
      · subst hge
        rfl
      · have hgw : ∀ c2 ∈ g.data, isWs c2 = false := hws g (List.mem_cons_self _ _)
        have h1 := splitWsGo_none_word g hge hgw []
        rw [List.append_nil] at h1
        rw [h1, splitWsGo, List.reverse_reverse]
    | cons g2 rest2 =>
      have hgne : g ≠ "" := hnemp g (by
        rw [List.dropLast_cons₂]
        exact List.mem_cons_self _ _)
      have hgw : ∀ c2 ∈ g.data, isWs c2 = false := hws g (List.mem_cons_self _ _)
      have hdata : (jsJoin " " (g :: g2 :: rest2)).data =
          g.data ++ (' ' :: (jsJoin " " (g2 :: rest2)).data) := by
        show (g ++ " " ++ jsJoin " " (g2 :: rest2)).data = _
        rw [String.data_append, String.data_append]
        simp
      rw [hdata, splitWsGo_none_word g hgne hgw]
      rw [splitWsGo, if_pos (by decide), List.reverse_reverse]
      congr 1
      exact ih (by simp) (fun w hw => hws w (List.mem_cons_of_mem _ hw))
        (fun w hw => hnemp w (dropLast_subset_cons g (g2 :: rest2) hw))

theorem splitWs_jsJoin (gs : List String) (hne : gs ≠ [])
    (hws : ∀ w ∈ gs, ∀ c ∈ w.data, isWs c = false)
    (hint : ∀ w ∈ gs.tail.dropLast, w ≠ "") :
    splitWs (jsJoin " " gs) = gs := by
  cases gs with
  | nil => contradiction
  | cons g rest =>
    cases rest with
    | nil =>
      show splitWsGo (some []) g.data = [g]
      exact splitWsGo_word_end g (hws g (List.mem_cons_self _ _))
    | cons g2 rest2 =>
      have hgw : ∀ c2 ∈ g.data, isWs c2 = false := hws g (List.mem_cons_self _ _)
      have hdata : (jsJoin " " (g :: g2 :: rest2)).data =
          g.data ++ (' ' :: (jsJoin " " (g2 :: rest2)).data) := by
        show (g ++ " " ++ jsJoin " " (g2 :: rest2)).data = _
        rw [String.data_append, String.data_append]
        simp
      rw [splitWs, hdata]
      rw [splitWsGo_consume g.data hgw [] (' ' :: (jsJoin " " (g2 :: rest2)).data)]
      rw [splitWsGo, if_pos (by decide), List.append_nil, List.reverse_reverse]
      congr 1
      refine splitWsGo_none_join (g2 :: rest2) (by simp)
        (fun w hw => hws w (List.mem_cons_of_mem _ hw)) ?_
      intro w hw
      exact hint w (by rw [List.tail_cons]; exact hw)

theorem splitWsGo_output_ws_free (l : List Char) :
    (∀ w ∈ splitWsGo none l, ∀ c ∈ w.data, isWs c = false) ∧
    (∀ cur, (∀ c ∈ cur, isWs c = false) →
      ∀ w ∈ splitWsGo (some cur) l, ∀ c ∈ w.data, isWs c = false) := by
  induction l with
  | nil =>
    constructor
    · intro w hw c hc
      simp [splitWsGo] at hw
      subst hw
      simp at hc
    · intro cur hcur w hw c hc
      simp [splitWsGo] at hw
      subst hw
      rw [show (String.mk cur.reverse).data = cur.reverse from rfl, List.mem_reverse] at hc
      exact hcur c hc
  | cons ch rest ih =>
    constructor
    · intro w hw c hc
      rw [splitWsGo] at hw
      by_cases hch : isWs ch = true
      · rw [if_pos hch] at hw
        exact ih.1 w hw c hc
      · rw [if_neg hch] at hw
        refine ih.2 [ch] ?_ w hw c hc
        intro d hd
        have hdc : d = ch := by simpa using hd
        subst hdc
        simpa using hch
    · intro cur hcur w hw c hc
      rw [splitWsGo] at hw
      by_cases hch : isWs ch = true
      · rw [if_pos hch] at hw
        rcases List.mem_cons.mp hw with rfl | hw2
        · rw [show (String.mk cur.reverse).data = cur.reverse from rfl,
            List.mem_reverse] at hc
          exact hcur c hc
        · exact ih.1 w hw2 c hc
      · rw [if_neg hch] at hw
        refine ih.2 (ch :: cur) ?_ w hw c hc
        intro d hd
        rcases List.mem_cons.mp hd with rfl | hd2
        · simpa using hch
        · exact hcur d hd2

theorem splitWsGo_interior (l : List Char) :
    (∀ w ∈ (splitWsGo none l).dropLast, w ≠ "") ∧
    (∀ cur, cur ≠ [] → ∀ w ∈ (splitWsGo (some cur) l).dropLast, w ≠ "") ∧
    (∀ cur, ∀ w ∈ (splitWsGo (some cur) l).tail.dropLast, w ≠ "") := by
  induction l with
  | nil =>
    refine ⟨?_, ?_, ?_⟩
    · intro w hw
      simp [splitWsGo] at hw
    · intro cur _ w hw
      simp [splitWsGo] at hw
    · intro cur w hw
      simp [splitWsGo] at hw
  | cons ch rest ih =>
    refine ⟨?_, ?_, ?_⟩
    · intro w hw
      rw [splitWsGo] at hw
      by_cases hch : isWs ch = true
      · rw [if_pos hch] at hw
        exact ih.1 w hw
      · rw [if_neg hch] at hw
        exact ih.2.1 [ch] (by simp) w hw
    · intro cur hcur w hw
      rw [splitWsGo] at hw
      by_cases hch : isWs ch = true
      · rw [if_pos hch] at hw
        cases hout : splitWsGo none rest with
        | nil => exact absurd hout (splitWsGo_ne_nil none rest)
        | cons o os =>
          rw [hout, List.dropLast_cons₂] at hw
          rcases List.mem_cons.mp hw with rfl | hw2
          · intro hemp
            apply hcur
            have hrev : cur.reverse = [] := congrArg String.data hemp
            simpa using hrev
          · rw [← hout] at hw2
            exact ih.1 w hw2
      · rw [if_neg hch] at hw
        exact ih.2.1 (ch :: cur) (by simp) w hw
    · intro cur w hw
      rw [splitWsGo] at hw
      by_cases hch : isWs ch = true
      · rw [if_pos hch] at hw
        rw [List.tail_cons] at hw
        exact ih.1 w hw
      · rw [if_neg hch] at hw
        exact ih.2.1 (ch :: cur) (by simp) w (tail_dropLast_subset _ hw)

theorem chunkGroups_resplit (n : Nat) : ∀ (ws : List String),
    (∀ w ∈ ws, ∀ c ∈ w.data, isWs c = false) →
    (∀ w ∈ ws.tail.dropLast, w ≠ "") →
    ((chunkGroups n ws).map (fun g => splitWs (jsJoin " " g))).flatten = ws := by
  intro ws
  induction ws using chunkGroups.induct n with
  | case1 =>
    intro _ _
    simp [chunkGroups]
  | case2 w wsr ih =>
    intro hws hint
    have hga : ∀ x ∈ (w :: wsr.take (n - 1)), ∀ c ∈ x.data, isWs c = false := by
      intro x hx
      rcases List.mem_cons.mp hx with rfl | hx2
      · exact hws x (List.mem_cons_self _ _)
      · exact hws x (List.mem_cons_of_mem _ (List.take_subset _ _ hx2))
    have hgi : ∀ x ∈ (w :: wsr.take (n - 1)).tail.dropLast, x ≠ "" := by
      intro x hx
      rw [List.tail_cons] at hx
      refine hint x ?_
      rw [List.tail_cons]
      exact dropLast_take_subset wsr (n - 1) hx
    have hsplit := splitWs_jsJoin (w :: wsr.take (n - 1)) (by simp) hga hgi
    rw [chunkGroups, List.map_cons, List.flatten_cons, hsplit]
    have hws2 : ∀ x ∈ wsr.drop (n - 1), ∀ c ∈ x.data, isWs c = false :=
      fun x hx => hws x (List.mem_cons_of_mem _ (List.drop_subset _ _ hx))
    have hint2 : ∀ x ∈ (wsr.drop (n - 1)).tail.dropLast, x ≠ "" := by
      intro x hx
      rw [List.tail_drop] at hx
      refine hint x ?_
      rw [List.tail_cons]
      exact dropLast_drop_subset wsr (n - 1 + 1) hx
    rw [ih hws2 hint2, List.cons_append, List.take_append_drop]

/-- Claim C1: for every input text and every positive chunk size, splitting
the text on whitespace into words and chunking yields word groups whose
concatenation in index order is exactly the original word sequence (no word
dropped, duplicated or reordered); the chunk strings are exactly those
groups re-joined with single spaces; and re-splitting the chunk strings on
whitespace and concatenating in index order also reproduces the exact
original word sequence. -/
theorem chunkWords_roundtrip (text : String) (n : Nat) (h : 0 < n) :
    chunkWords text n = (chunkGroups n (splitWs text)).map (fun g => jsJoin " " g) ∧
    (chunkGroups n (splitWs text)).flatten = splitWs text ∧
    ((chunkWords text n).map splitWs).flatten = splitWs text := by
  refine ⟨rfl, chunkGroups_join n (splitWs text), ?_⟩
  rw [chunkWords, List.map_map]
  exact chunkGroups_resplit n (splitWs text)
    (fun w hw => (splitWsGo_output_ws_free text.data).2 [] (by simp) w hw)
    ((splitWsGo_interior text.data).2.2 [])

/-- Witness for C1 at a concrete input: 5 words, chunk size 2, so two full
chunks and a shorter remainder chunk. -/
theorem chunkWords_roundtrip_witness :
    0 < 2 ∧
    (chunkWords "a b c d e" 2 = (chunkGroups 2 (splitWs "a b c d e")).map (fun g => jsJoin " " g) ∧
      (chunkGroups 2 (splitWs "a b c d e")).flatten = splitWs "a b c d e" ∧
      ((chunkWords "a b c d e" 2).map splitWs).flatten = splitWs "a b c d e") ∧
    chunkWords "a b c d e" 2 = ["a b", "c d", "e"] := by
  refine ⟨by decide, chunkWords_roundtrip "a b c d e" 2 (by decide), ?_⟩
  have hs : splitWs "a b c d e" = ["a", "b", "c", "d", "e"] := by decide
  simp [chunkWords, hs, chunkGroups]
  decide

/-- Claim C10: for every input string (including `""`) and positive chunk
size, the chunker returns at least one chunk — `split(/\s+/)` never returns
an empty word array (the empty string yields one empty word) — so the
`info` event's `totalChunks` and `wordCount` are both at least 1. -/
theorem chunkWords_at_least_one (text : String) (n : Nat) (h : 0 < n) :
    1 ≤ (chunkWords text n).length ∧ 1 ≤ (splitWs text).length ∧
    chunkWords "" n = [""] := by
  refine ⟨?_, ?_, ?_⟩
  · have hne := splitWs_ne_nil text
    cases hw : splitWs text with
    | nil => exact absurd hw hne
    | cons w ws => simp [chunkWords, hw, chunkGroups]
  · have hne := splitWs_ne_nil text
    cases hw : splitWs text with
    | nil => exact absurd hw hne
    | cons w ws => simp [hw]
  · have hsplit : splitWs "" = [""] := by decide
    simp [chunkWords, hsplit, chunkGroups, jsJoin]

/-- Witness for C10 at concrete inputs: the empty string with chunk size 3
produces exactly one chunk. -/
theorem chunkWords_at_least_one_witness :
    0 < 3 ∧
    (1 ≤ (chunkWords "" 3).length ∧ 1 ≤ (splitWs "").length ∧ chunkWords "" 3 = [""]) :=
  ⟨by decide, chunkWords_at_least_one "" 3 (by decide)⟩

/-! The timecode marker format. -/

theorem intToString_natCast (n : Nat) : intToString (n : ℤ) = natToString n := by
  simp [intToString]

theorem padStart2_natToString (n : Nat) (h : n < 100) :
    padStart2 (natToString n) = twoDigitSpec n := by
  revert h
  revert n
  decide

/-- Claim C5: for every nonnegative offset, the marker formatter renders
`[M:SS]` when the represented hour component is zero and `[H:MM:SS]`
otherwise, with seconds (and, in the hour form, minutes) zero-padded to
exactly two digits — stated as agreement with `markerSpec`, the formatter
written directly from the spec's words. -/
theorem formatTimecodeMarker_eq_markerSpec (t : ℚ) (h : 0 ≤ t) :
    formatTimecodeMarker t = markerSpec (⌊t⌋.toNat) := by
  have hs : 0 ≤ ⌊t⌋ := Int.floor_nonneg.mpr h
  have hsk : ⌊t⌋ = ((⌊t⌋.toNat : ℕ) : ℤ) := (Int.toNat_of_nonneg hs).symm
  set k : ℕ := ⌊t⌋.toNat with hk
  have h1 : Int.fdiv ⌊t⌋ 3600 = ((k / 3600 : ℕ) : ℤ) := by
    rw [hsk, Int.fdiv_eq_ediv _ (by omega)]
    omega
  have h2 : Int.tmod ⌊t⌋ 3600 = ((k % 3600 : ℕ) : ℤ) := by
    rw [hsk, Int.tmod_eq_emod (by omega) (by omega)]
    omega
  have h3 : Int.fdiv ((k % 3600 : ℕ) : ℤ) 60 = ((k % 3600 / 60 : ℕ) : ℤ) := by
    rw [Int.fdiv_eq_ediv _ (by omega)]
    omega
  have h4 : Int.tmod ⌊t⌋ 60 = ((k % 60 : ℕ) : ℤ) := by
    rw [hsk, Int.tmod_eq_emod (by omega) (by omega)]
    omega
  simp only [formatTimecodeMarker, markerSpec, h1, h2, h3, h4]
  by_cases hzero : k / 3600 = 0
  · have hcond : ¬(0 : ℤ) < ((k / 3600 : ℕ) : ℤ) := by omega
    rw [if_neg hcond, if_pos hzero, intToString_natCast, intToString_natCast,
      padStart2_natToString _ (by omega)]
  · have hcond : (0 : ℤ) < ((k / 3600 : ℕ) : ℤ) := by omega
    rw [if_pos hcond, if_neg hzero, intToString_natCast, intToString_natCast,
      intToString_natCast, padStart2_natToString _ (by omega),
      padStart2_natToString _ (by omega)]

/-- Witness for C5 at the concrete offset 3725.5 s = 1 h 2 min 5.5 s. -/
theorem formatTimecodeMarker_eq_markerSpec_witness :
    0 ≤ (3725.5 : ℚ) ∧
    formatTimecodeMarker (3725.5 : ℚ) = markerSpec ((⌊(3725.5 : ℚ)⌋).toNat) ∧
    markerSpec ((⌊(3725.5 : ℚ)⌋).toNat) = "[1:02:05]" := by
  refine ⟨by norm_num, formatTimecodeMarker_eq_markerSpec _ (by norm_num), ?_⟩
  have hf : ⌊(3725.5 : ℚ)⌋ = 3725 := by
    norm_num [Int.floor_eq_iff]
  rw [hf]
  decide

/-! The raw-text assembler without timing data. -/

theorem hasTimingData_eq_true_iff (items : List TranscriptItem) :
    hasTimingData items = true ↔
      (1 < items.length ∧ ∃ i ∈ items, (0 : ℚ) < i.offset) := by
  simp [hasTimingData, List.any_eq_true]

theorem replaceNl_br_free (s : String) (h : '[' ∉ s.data) :
    '[' ∉ (replaceNl s).data := by
  intro hmem
  simp only [replaceNl] at hmem
  rcases List.mem_map.mp hmem with ⟨a, ha, hfa⟩
  by_cases hnl : a = '\n'
  · simp [hnl] at hfa
  · rw [if_neg hnl] at hfa
    exact h (hfa ▸ ha)

theorem mem_jsJoin (sep : String) (l : List String) (c : Char)
    (h : c ∈ (jsJoin sep l).data) : c ∈ sep.data ∨ ∃ s ∈ l, c ∈ s.data := by
  induction l with
  | nil => simp [jsJoin] at h
  | cons s rest ih =>
    cases rest with
    | nil =>
      simp only [jsJoin] at h
      exact Or.inr ⟨s, by simp, h⟩
    | cons s2 rest2 =>
      have hj : jsJoin sep (s :: s2 :: rest2) = s ++ sep ++ jsJoin sep (s2 :: rest2) := rfl
      rw [hj] at h
      simp only [String.data_append, List.mem_append] at h
      rcases h with (h | h) | h
      · exact Or.inr ⟨s, by simp, h⟩
      · exact Or.inl h
      · rcases ih h with h2 | ⟨s3, hs3, hc3⟩
        · exact Or.inl h2
        · exact Or.inr ⟨s3, by simp [hs3], hc3⟩

/-- Claim C4: a cue sequence without real timing data — not (more than one
cue and some nonzero offset) — yields `hasTimecodes = false` and a text
that is the plain space-join of the cues' texts with newlines replaced by
spaces; when the cues contain no `[`, the text contains no bracketed
marker at all. -/
theorem buildRawText_no_timing (items : List TranscriptItem)
    (h : ¬(1 < items.length ∧ ∃ i ∈ items, (0 : ℚ) < i.offset)) :
    (buildRawText items).hasTimecodes = false ∧
    (buildRawText items).text = jsJoin " " (items.map (fun i => replaceNl i.text)) ∧
    ((∀ i ∈ items, '[' ∉ i.text.data) → '[' ∉ (buildRawText items).text.data) := by
  have htd : ¬ hasTimingData items = true := fun hh =>
    h ((hasTimingData_eq_true_iff items).mp hh)
  rw [buildRawText, if_neg htd]
  refine ⟨rfl, rfl, ?_⟩
  intro hbr hmem
  rcases mem_jsJoin _ _ _ hmem with hsep | ⟨s, hs, hcs⟩
  · simp at hsep
  · rcases List.mem_map.mp hs with ⟨i, hi, rfl⟩
    exact replaceNl_br_free _ (hbr i hi) hcs

/-- Witness for C4 at concrete inputs: two cues both at offset 0 (the
single-blob normalization shape), and — separately — a single cue with a
nonzero offset. -/
theorem buildRawText_no_timing_witness :
    (¬(1 < ([⟨"hello\nworld", 2, 0⟩, ⟨"more", 3, 0⟩] : List TranscriptItem).length ∧
        ∃ i ∈ ([⟨"hello\nworld", 2, 0⟩, ⟨"more", 3, 0⟩] : List TranscriptItem),
          (0 : ℚ) < i.offset)) ∧
    ((buildRawText [⟨"hello\nworld", 2, 0⟩, ⟨"more", 3, 0⟩]).hasTimecodes = false ∧
      (buildRawText [⟨"hello\nworld", 2, 0⟩, ⟨"more", 3, 0⟩]).text =
        jsJoin " " (([⟨"hello\nworld", 2, 0⟩, ⟨"more", 3, 0⟩] :
          List TranscriptItem).map (fun i => replaceNl i.text)) ∧
      ((∀ i ∈ ([⟨"hello\nworld", 2, 0⟩, ⟨"more", 3, 0⟩] : List TranscriptItem),
          '[' ∉ i.text.data) →
        '[' ∉ (buildRawText [⟨"hello\nworld", 2, 0⟩, ⟨"more", 3, 0⟩]).text.data)) ∧
    (buildRawText [⟨"hello\nworld", 2, 0⟩, ⟨"more", 3, 0⟩]).text = "hello world more" ∧
    (buildRawText [⟨"solo", 5, 90⟩]).hasTimecodes = false := by
  refine ⟨by decide, buildRawText_no_timing _ (by decide), by decide, by decide⟩

/-! Timecode markers in assembled text: bracket counting. -/

theorem mem_natToStringGo (fuel : Nat) :
    ∀ (n : Nat) (acc : List Char) (c : Char), c ∈ natToStringGo fuel n acc →
      c ∈ acc ∨ ∃ d, d < 10 ∧ c = digitChar d := by
  induction fuel with
  | zero => intro n acc c h; exact Or.inl h
  | succ fuel ih =>
    intro n acc c h
    rw [natToStringGo] at h
    by_cases h10 : n < 10
    · rw [if_pos h10] at h
      rcases List.mem_cons.mp h with hd | hacc
      · exact Or.inr ⟨n % 10, Nat.mod_lt n (by omega), hd⟩
      · exact Or.inl hacc
    · rw [if_neg h10] at h
      rcases ih _ _ _ h with hacc | hd
      · rcases List.mem_cons.mp hacc with hd | hacc2
        · exact Or.inr ⟨n % 10, Nat.mod_lt n (by omega), hd⟩
        · exact Or.inl hacc2
      · exact Or.inr hd

theorem br_not_mem_natToString (n : Nat) : '[' ∉ (natToString n).data := by
  intro h
  rcases mem_natToStringGo (n + 1) n [] '[' h with hacc | ⟨d, hd, hc⟩
  · simp at hacc
  · have : digitChar d ≠ '[' := by
      interval_cases d <;> decide
    exact this hc.symm

theorem br_not_mem_intToString (n : ℤ) : '[' ∉ (intToString n).data := by
  intro h
  rw [intToString] at h
  by_cases hneg : n < 0
  · rw [if_pos hneg] at h
    rw [String.data_append] at h
    rcases List.mem_append.mp h with h1 | h2
    · simp at h1
    · exact br_not_mem_natToString _ h2
  · rw [if_neg hneg] at h
    exact br_not_mem_natToString _ h

theorem countBr_padStart2 (s : String) (h : countBr s = 0) :
    countBr (padStart2 s) = 0 := by
  rw [padStart2]
  by_cases h0 : s.length = 0
  · rw [if_pos h0]; decide
  · rw [if_neg h0]
    by_cases h1 : s.length = 1
    · rw [if_pos h1]
      rw [countBr, String.data_append, List.count_append]
      have : countBr "0" = 0 := by decide
      rw [countBr] at this h
      omega
    · rw [if_neg h1]; exact h

theorem countBr_intToString (n : ℤ) : countBr (intToString n) = 0 :=
  List.count_eq_zero.mpr (br_not_mem_intToString n)

theorem countBr_marker (t : ℚ) : countBr (formatTimecodeMarker t) = 1 := by
  rw [formatTimecodeMarker]
  have hbr : List.count '[' ['['] = 1 := by decide
  have hcl : List.count '[' [']'] = 0 := by decide
  have hco : List.count '[' [':'] = 0 := by decide
  by_cases hpos : 0 < Int.fdiv ⌊t⌋ 3600
  · rw [if_pos hpos]
    simp only [countBr, String.data_append, List.count_append]
    have h1 := countBr_intToString (Int.fdiv ⌊t⌋ 3600)
    have h2 := countBr_padStart2 _ (countBr_intToString (Int.fdiv (Int.tmod ⌊t⌋ 3600) 60))
    have h3 := countBr_padStart2 _ (countBr_intToString (Int.tmod ⌊t⌋ 60))
    rw [countBr] at h1 h2 h3
    omega
  · rw [if_neg hpos]
    simp only [countBr, String.data_append, List.count_append]
    have h2 := countBr_padStart2 _ (countBr_intToString (Int.tmod ⌊t⌋ 60))
    have h1 := countBr_intToString (Int.fdiv (Int.tmod ⌊t⌋ 3600) 60)
    rw [countBr] at h1 h2
    omega

theorem countBr_jsJoin_space (l : List String) :
    countBr (jsJoin " " l) = (l.map countBr).sum := by
  induction l with
  | nil => decide
  | cons s rest ih =>
    cases rest with
    | nil => simp [jsJoin]
    | cons s2 rest2 =>
      have hj : jsJoin " " (s :: s2 :: rest2) = s ++ " " ++ jsJoin " " (s2 :: rest2) := rfl
      rw [hj]
      simp only [List.map_cons, List.sum_cons] at ih ⊢
      rw [countBr, String.data_append, String.data_append, List.count_append,
        List.count_append]
      have hsp : countBr " " = 0 := by decide
      rw [countBr] at hsp
      rw [countBr] at ih ⊢
      omega

theorem br_not_mem_jsTrim (s : String) (h : '[' ∉ s.data) : '[' ∉ (jsTrim s).data := by
  intro hmem
  apply h
  simp only [jsTrim] at hmem
  rw [List.mem_reverse] at hmem
  have h2 := (List.dropWhile_sublist (l := (s.data.dropWhile isWs).reverse) (p := isWs)).mem hmem
  rw [List.mem_reverse] at h2
  exact (List.dropWhile_sublist isWs).mem h2

theorem countBr_rawParts (items : List TranscriptItem)
    (hbr : ∀ i ∈ items, '[' ∉ i.text.data) :
    ∀ last, ((rawParts last items).map countBr).sum =
      (markerOffsets last (items.map TranscriptItem.offset)).length := by
  induction items with
  | nil => intro last; simp [rawParts, markerOffsets]
  | cons item rest ih =>
    intro last
    have hbrr : ∀ i ∈ rest, '[' ∉ i.text.data := fun i hi => hbr i (List.mem_cons_of_mem _ hi)
    have hbrh : '[' ∉ item.text.data := hbr item (List.mem_cons_self _ _)
    have htext0 : countBr (jsTrim (replaceNl item.text)) = 0 :=
      List.count_eq_zero.mpr (br_not_mem_jsTrim _ (replaceNl_br_free item.text hbrh))
    simp only [rawParts, markerOffsets, List.map_cons]
    by_cases hfire : 60 ≤ item.offset - last
    · rw [if_pos hfire, if_pos hfire]
      by_cases ht : jsTrim (replaceNl item.text) = ""
      · rw [if_pos ht, List.map_cons, List.sum_cons, countBr_marker, List.length_cons,
          ih hbrr item.offset]
        omega
      · rw [if_neg ht, List.map_cons, List.map_cons, List.sum_cons, List.sum_cons,
          countBr_marker, htext0, List.length_cons, ih hbrr item.offset]
        omega
    · rw [if_neg hfire, if_neg hfire]
      by_cases ht : jsTrim (replaceNl item.text) = ""
      · rw [if_pos ht]
        exact ih hbrr last
      · rw [if_neg ht, List.map_cons, List.sum_cons, htext0, ih hbrr last]
        omega

/-! Spacing and counting of marker offsets. -/

theorem markerOffsets_head_ge (os : List ℚ) :
    ∀ last y, (markerOffsets last os).head? = some y → last + 60 ≤ y := by
  induction os with
  | nil => intro last y h; simp [markerOffsets] at h
  | cons o rest ih =>
    intro last y h
    rw [markerOffsets] at h
    by_cases hfire : 60 ≤ o - last
    · rw [if_pos hfire] at h
      simp at h
      linarith [h]
    · rw [if_neg hfire] at h
      exact ih last y h

theorem markerOffsets_chain (os : List ℚ) :
    ∀ last, List.Chain' (fun a b => a + 60 ≤ b) (markerOffsets last os) := by
  induction os with
  | nil => intro last; simp [markerOffsets]
  | cons o rest ih =>
    intro last
    rw [markerOffsets]
    by_cases hfire : 60 ≤ o - last
    · rw [if_pos hfire]
      rw [List.chain'_cons']
      exact ⟨fun y hy => markerOffsets_head_ge rest o y hy, ih o⟩
    · rw [if_neg hfire]
      exact ih last

theorem markerOffsets_subset (os : List ℚ) :
    ∀ last, markerOffsets last os ⊆ os := by
  induction os with
  | nil => intro last; simp [markerOffsets]
  | cons o rest ih =>
    intro last
    rw [markerOffsets]
    by_cases hfire : 60 ≤ o - last
    · rw [if_pos hfire]
      intro x hx
      rcases List.mem_cons.mp hx with rfl | hx2
      · exact List.mem_cons_self _ _
      · exact List.mem_cons_of_mem _ (ih o hx2)
    · rw [if_neg hfire]
      intro x hx
      exact List.mem_cons_of_mem _ (ih last hx)

theorem chain_spread (M : List ℚ) (hc : List.Chain' (fun a b => a + 60 ≤ b) M) :
    ∀ m0 b, M.head? = some m0 → M.getLast? = some b →
      m0 + 60 * ((M.length : ℚ) - 1) ≤ b := by
  induction M with
  | nil => intro m0 b h; simp at h
  | cons x t ih =>
    intro m0 b hh hl
    have hx : x = m0 := by simpa using hh
    subst hx
    cases t with
    | nil =>
      simp at hl
      subst hl
      simp
    | cons y t2 =>
      have hxy : x + 60 ≤ y := (List.chain'_cons.mp hc).1
      have hc2 : List.Chain' (fun a b => a + 60 ≤ b) (y :: t2) := (List.chain'_cons.mp hc).2
      rw [List.getLast?_cons_cons] at hl
      have := ih hc2 y b rfl hl
      simp only [List.length_cons] at this ⊢
      push_cast at this ⊢
      linarith

theorem le_getLast_of_pairwise_lt (l : List ℚ) (hp : List.Pairwise (· < ·) l) :
    ∀ b, l.getLast? = some b → ∀ m ∈ l, m ≤ b := by
  induction l with
  | nil => intro b hb; simp at hb
  | cons x t ih =>
    intro b hb m hm
    cases t with
    | nil =>
      simp at hb hm
      subst hb
      subst hm
      rfl
    | cons y t2 =>
      rw [List.getLast?_cons_cons] at hb
      have hxall : ∀ z ∈ y :: t2, x < z := fun z hz => (List.pairwise_cons.mp hp).1 z hz
      have hp2 : List.Pairwise (· < ·) (y :: t2) := (List.pairwise_cons.mp hp).2
      rcases List.mem_cons.mp hm with rfl | hm2
      · have hbmem : b ∈ y :: t2 := by
          rcases List.mem_getLast?_eq_getLast hb with ⟨hne, rfl⟩
          exact List.getLast_mem hne
        exact le_of_lt (hxall b hbmem)
      · exact ih hp2 b hb m hm2

/-- Claim C3, amended.  For a timed cue sequence with strictly increasing
nonnegative offsets and bracket-free cue texts, with first offset `a` and
last offset `b`: the assembled text contains exactly as many `[` characters
as the loop emits markers; there is at least one marker (the leading one);
consecutive marker offsets are at least 60 seconds apart (never more than
one marker per 60 real seconds of content); and the marker count is at
most `⌊(b - a) / 60⌋ + 1`.  The original claim's exact count
`⌊totalSeconds / 60⌋ + 1` does not hold (see the counterexample): a marker
is emitted at the first cue at least 60 s after the previous marker, so
sparse cues produce fewer markers. -/
theorem buildRawText_markers (items : List TranscriptItem)
    (htd : hasTimingData items = true)
    (hbr : ∀ i ∈ items, '[' ∉ i.text.data)
    (hmono : List.Chain' (· < ·) (items.map TranscriptItem.offset))
    (hnn : ∀ i ∈ items, 0 ≤ i.offset)
    (a b : ℚ)
    (ha : (items.map TranscriptItem.offset).head? = some a)
    (hb : (items.map TranscriptItem.offset).getLast? = some b) :
    countBr (buildRawText items).text =
      (markerOffsets (-61) (items.map TranscriptItem.offset)).length ∧
    1 ≤ (markerOffsets (-61) (items.map TranscriptItem.offset)).length ∧
    List.Chain' (fun x y => x + 60 ≤ y)
      (markerOffsets (-61) (items.map TranscriptItem.offset)) ∧
    ((markerOffsets (-61) (items.map TranscriptItem.offset)).length : ℤ) ≤
      ⌊(b - a) / 60⌋ + 1 := by
  have hcount : countBr (buildRawText items).text =
      (markerOffsets (-61) (items.map TranscriptItem.offset)).length := by
    rw [buildRawText, if_pos htd]
    exact (countBr_jsJoin_space _).trans (countBr_rawParts items hbr (-61))
  have hlen : 1 ≤ (markerOffsets (-61) (items.map TranscriptItem.offset)).length := by
    have hlong : 1 < items.length := ((hasTimingData_eq_true_iff items).mp htd).1
    cases items with
    | nil => simp at hlong
    | cons it rest =>
      have hnn0 : (0 : ℚ) ≤ it.offset := hnn it (List.mem_cons_self _ _)
      rw [List.map_cons, markerOffsets, if_pos (by linarith)]
      simp
  refine ⟨hcount, hlen, markerOffsets_chain _ _, ?_⟩
  set offs := items.map TranscriptItem.offset with hoffs
  set M := markerOffsets (-61) offs with hM
  have hpw : List.Pairwise (· < ·) offs := List.chain'_iff_pairwise.mp hmono
  have hMne : M ≠ [] := by
    intro hnil
    rw [hnil] at hlen
    simp at hlen
  have hm0 : M.head? = some (M.head hMne) := List.head?_eq_head hMne
  have hbM : M.getLast? = some (M.getLast hMne) := List.getLast?_eq_getLast M hMne
  have hspread := chain_spread M (markerOffsets_chain offs (-61)) (M.head hMne)
    (M.getLast hMne) hm0 hbM
  have hm0mem : M.head hMne ∈ offs := markerOffsets_subset offs (-61) (List.head_mem hMne)
  have hbMmem : M.getLast hMne ∈ offs := markerOffsets_subset offs (-61) (List.getLast_mem hMne)
  have ham0 : a ≤ M.head hMne := by
    cases hoff : offs with
    | nil => rw [hoff] at hm0mem; simp at hm0mem
    | cons x t =>
      rw [hoff] at ha hm0mem hpw
      have hxa : x = a := by simpa using ha
      subst hxa
      rcases List.mem_cons.mp hm0mem with heq | hmem2
      · rw [heq]
      · exact le_of_lt ((List.pairwise_cons.mp hpw).1 _ hmem2)
  have hbMb : M.getLast hMne ≤ b := le_getLast_of_pairwise_lt offs hpw b hb _ hbMmem
  have hk : M.head hMne + 60 * ((M.length : ℚ) - 1) ≤ M.getLast hMne := hspread
  have h60 : 60 * ((M.length : ℚ) - 1) ≤ b - a := by linarith
  have hdiv : ((M.length : ℚ) - 1) ≤ (b - a) / 60 := by
    rw [le_div_iff₀ (by norm_num : (0 : ℚ) < 60)]
    linarith
  have hfl : ((M.length : ℤ) - 1) ≤ ⌊(b - a) / 60⌋ := by
    apply Int.le_floor.mpr
    push_cast
    exact hdiv
  omega

/-- Counterexample to C3 as stated: the cues at offsets 0, 100, 200 are
strictly increasing, more than one and not all zero, and span
200 seconds of content, yet the assembled text contains 3 markers
(at 0:00, 1:40 and 3:20) while the claim demands
`⌊200 / 60⌋ + 1 = 4`. -/
theorem buildRawText_marker_count_counterexample :
    hasTimingData [⟨"a", 0, 0⟩, ⟨"b", 0, 100⟩, ⟨"c", 0, 200⟩] = true ∧
    List.Chain' (· < ·)
      (([⟨"a", 0, 0⟩, ⟨"b", 0, 100⟩, ⟨"c", 0, 200⟩] :
        List TranscriptItem).map TranscriptItem.offset) ∧
    (([⟨"a", 0, 0⟩, ⟨"b", 0, 100⟩, ⟨"c", 0, 200⟩] :
        List TranscriptItem).map TranscriptItem.offset).head? = some 0 ∧
    (([⟨"a", 0, 0⟩, ⟨"b", 0, 100⟩, ⟨"c", 0, 200⟩] :
        List TranscriptItem).map TranscriptItem.offset).getLast? = some 200 ∧
    countBr (buildRawText [⟨"a", 0, 0⟩, ⟨"b", 0, 100⟩, ⟨"c", 0, 200⟩]).text = 3 ∧
    (3 : ℤ) ≠ ⌊((200 : ℚ) - 0) / 60⌋ + 1 := by
  refine ⟨by decide, ?_, by decide, by decide, ?_, ?_⟩
  · simp only [List.map_cons, List.map_nil, List.chain'_cons, List.chain'_singleton,
      and_true]
    norm_num
  · have h : hasTimingData [⟨"a", 0, 0⟩, ⟨"b", 0, 100⟩, ⟨"c", 0, 200⟩] = true := by decide
    rw [buildRawText, if_pos h]
    norm_num [rawParts]
    decide
  · have : ⌊((200 : ℚ) - 0) / 60⌋ = 3 := by
      norm_num
    omega

/-- Witness for the amended C3 at cues with offsets 0, 30, 65: markers at
0 and 65, so 2 markers, spaced 65 s apart, with bound `⌊65 / 60⌋ + 1 = 2`
attained. -/
theorem buildRawText_markers_witness :
    (hasTimingData [⟨"w", 0, 0⟩, ⟨"x", 0, 30⟩, ⟨"y", 0, 65⟩] = true ∧
      (∀ i ∈ ([⟨"w", 0, 0⟩, ⟨"x", 0, 30⟩, ⟨"y", 0, 65⟩] : List TranscriptItem),
        '[' ∉ i.text.data) ∧
      List.Chain' (· < ·)
        (([⟨"w", 0, 0⟩, ⟨"x", 0, 30⟩, ⟨"y", 0, 65⟩] :
          List TranscriptItem).map TranscriptItem.offset) ∧
      (∀ i ∈ ([⟨"w", 0, 0⟩, ⟨"x", 0, 30⟩, ⟨"y", 0, 65⟩] : List TranscriptItem),
        0 ≤ i.offset)) ∧
    (countBr (buildRawText [⟨"w", 0, 0⟩, ⟨"x", 0, 30⟩, ⟨"y", 0, 65⟩]).text =
      (markerOffsets (-61)
        (([⟨"w", 0, 0⟩, ⟨"x", 0, 30⟩, ⟨"y", 0, 65⟩] :
          List TranscriptItem).map TranscriptItem.offset)).length ∧
    1 ≤ (markerOffsets (-61)
        (([⟨"w", 0, 0⟩, ⟨"x", 0, 30⟩, ⟨"y", 0, 65⟩] :
          List TranscriptItem).map TranscriptItem.offset)).length ∧
    List.Chain' (fun x y => x + 60 ≤ y)
      (markerOffsets (-61)
        (([⟨"w", 0, 0⟩, ⟨"x", 0, 30⟩, ⟨"y", 0, 65⟩] :
          List TranscriptItem).map TranscriptItem.offset)) ∧
    ((markerOffsets (-61)
        (([⟨"w", 0, 0⟩, ⟨"x", 0, 30⟩, ⟨"y", 0, 65⟩] :
          List TranscriptItem).map TranscriptItem.offset)).length : ℤ) ≤
      ⌊((65 : ℚ) - 0) / 60⌋ + 1) := by
  have hmono : List.Chain' (· < ·)
      (([⟨"w", 0, 0⟩, ⟨"x", 0, 30⟩, ⟨"y", 0, 65⟩] :
        List TranscriptItem).map TranscriptItem.offset) := by
    simp only [List.map_cons, List.map_nil, List.chain'_cons, List.chain'_singleton,
      and_true]
    norm_num
  refine ⟨⟨by decide, by decide, hmono, by decide⟩, ?_⟩
  exact buildRawText_markers [⟨"w", 0, 0⟩, ⟨"x", 0, 30⟩, ⟨"y", 0, 65⟩]
    (by decide) (by decide) hmono (by decide) 0 65 (by decide) (by decide)

/-! The acquisition orchestrator's fallback policy. -/

/-- Claim C2, code bug illustrated.  With a primary credential configured
and the primary adapter failing with the route's own definitive
`TranscriptsNotAvailableError` (which `fetchViaSupadata` throws when the
provider's async job fails or the transcript content is empty — a
definitive "no transcript exists" classification), the orchestrator falls
through and invokes the fallback adapter once, returning its result,
instead of propagating the definitive error with no fallback invocation:
the guard's comment says "Re-throw our own error types from polling —
they're already final", but the `instanceof` checks name
`TranscriptsDisabledError` and `VideoUnavailableError`, which
`fetchViaSupadata` never throws, so the re-throw branch is dead code.
The other conjuncts show the branches that do match the claim: other
Supadata codes fall through exactly once, `transcript-unavailable` and
`not-found` propagate with no fallback invocation, and a missing
credential goes straight to the fallback. -/
theorem fetchTranscript_notAvailable_falls_through :
    fetchTranscript (some "key") (.error .transcriptsNotAvailable)
        (.ok ⟨[⟨"hi", 1, 0⟩], none⟩) =
      (.ok ⟨[⟨"hi", 1, 0⟩], none⟩, 1) ∧
    fetchTranscript (some "key") (.error (.supadata .otherCode))
        (.ok ⟨[⟨"hi", 1, 0⟩], none⟩) =
      (.ok ⟨[⟨"hi", 1, 0⟩], none⟩, 1) ∧
    fetchTranscript (some "key") (.error (.supadata .transcriptUnavailable))
        (.ok ⟨[⟨"hi", 1, 0⟩], none⟩) = (.error .transcriptsDisabled, 0) ∧
    fetchTranscript (some "key") (.error (.supadata .notFound))
        (.ok ⟨[⟨"hi", 1, 0⟩], none⟩) = (.error .videoUnavailable, 0) ∧
    fetchTranscript none (.error (.unknown "ignored"))
        (.ok ⟨[⟨"hi", 1, 0⟩], none⟩) = (.ok ⟨[⟨"hi", 1, 0⟩], none⟩, 1) :=
  ⟨rfl, rfl, rfl, rfl, rfl⟩

/-! The identifier resolver. -/

theorem leadsWith_append (p q : List Char) : leadsWith p (p ++ q) = true := by
  induction p with
  | nil => rfl
  | cons c cs ih => simp [leadsWith, ih]

/-- Claim C6: the resolver — a pure function of the parse result, with no
effects — returns `none` for an unparseable string; the whole path (minus
the leading slash) for the short-link host; the nonempty `v` query
parameter for a host containing `youtube.com`; the embed-path capture when
`v` is absent or empty; and `none` for every other host.  The fifth
conjunct identifies the embed capture on a well-formed `/embed/<id>`
path. -/
theorem extractVideoId_spec :
    (extractVideoId none = none) ∧
    (∀ u : UrlParts, u.hostname = "youtu.be" →
      extractVideoId (some u) = some (u.pathname.drop 1)) ∧
    (∀ u : UrlParts, u.hostname ≠ "youtu.be" →
      containsSub "youtube.com".data u.hostname.data = true →
      ∀ v, getSearchParam u.searchParams "v" = some v → v ≠ "" →
        extractVideoId (some u) = some v) ∧
    (∀ u : UrlParts, u.hostname ≠ "youtu.be" →
      containsSub "youtube.com".data u.hostname.data = true →
      (getSearchParam u.searchParams "v" = none ∨
        getSearchParam u.searchParams "v" = some "") →
      extractVideoId (some u) = embedMatch u.pathname.data) ∧
    (∀ ident : String, ident ≠ "" → (∀ c ∈ ident.data, c ≠ '/' ∧ c ≠ '?') →
      embedMatch ("/embed/" ++ ident).data = some ident) ∧
    (∀ u : UrlParts, u.hostname ≠ "youtu.be" →
      containsSub "youtube.com".data u.hostname.data = false →
      extractVideoId (some u) = none) := by
  refine ⟨rfl, ?_, ?_, ?_, ?_, ?_⟩
  · intro u h
    simp only [extractVideoId]
    rw [if_pos (by simp [h])]
  · intro u hne hsub v hv hvne
    simp only [extractVideoId]
    rw [if_neg (by simp [hne]), if_pos hsub, hv]
    show (if (v == "") = true then embedMatch u.pathname.data else some v) = some v
    rw [if_neg (by simp [hvne])]
  · intro u hne hsub hv
    simp only [extractVideoId]
    rw [if_neg (by simp [hne]), if_pos hsub]
    rcases hv with hv | hv
    · rw [hv]
    · rw [hv]
      show (if ("" == "") = true then embedMatch u.pathname.data else some "") =
        embedMatch u.pathname.data
      rw [if_pos (by decide)]
  · intro ident hne hchars
    have hdata : ("/embed/" ++ ident).data = "/embed/".data ++ ident.data :=
      String.data_append _ _
    have hcons : "/embed/".data ++ ident.data = '/' :: ("embed/".data ++ ident.data) := rfl
    have hlead : leadsWith "/embed/".data ('/' :: ("embed/".data ++ ident.data)) = true := by
      rw [← hcons]
      exact leadsWith_append _ _
    rw [hdata, hcons, embedMatch, if_pos hlead]
    have hdrop : (('/' :: ("embed/".data ++ ident.data)).drop 7) = ident.data := rfl
    rw [hdrop]
    have htake : ident.data.takeWhile (fun ch => !(ch == '/') && !(ch == '?')) = ident.data := by
      rw [List.takeWhile_eq_self_iff]
      intro a ha
      rcases hchars a ha with ⟨h1, h2⟩
      simp [h1, h2]
    rw [htake]
    have hnotempty : ident.data.isEmpty ≠ true := by
      intro hempty
      apply hne
      have hdat : ident.data = [] := by simpa using hempty
      cases ident with
      | mk l =>
        have hl : l = [] := hdat
        subst hl
        rfl
    rw [if_neg hnotempty]
  · intro u hne hsub
    simp only [extractVideoId]
    rw [if_neg (by simp [hne]), if_neg (by simp [hsub])]

/-- Witness for C6 at one concrete URL of each accepted shape and one
foreign host. -/
theorem extractVideoId_spec_witness :
    extractVideoId (some ⟨"youtu.be", "/dQw4w9WgXcQ", []⟩) = some "dQw4w9WgXcQ" ∧
    extractVideoId (some ⟨"www.youtube.com", "/watch", [("v", "abc123")]⟩) =
      some "abc123" ∧
    extractVideoId (some ⟨"www.youtube.com", "/embed/xyz9", []⟩) = some "xyz9" ∧
    extractVideoId (some ⟨"vimeo.com", "/watch", [("v", "zzz")]⟩) = none := by
  refine ⟨?_, ?_, ?_, ?_⟩
  · have h := extractVideoId_spec.2.1 ⟨"youtu.be", "/dQw4w9WgXcQ", []⟩ rfl
    rw [h]
    decide
  · exact extractVideoId_spec.2.2.1 ⟨"www.youtube.com", "/watch", [("v", "abc123")]⟩
      (by decide) (by decide) "abc123" rfl (by decide)
  · have h := extractVideoId_spec.2.2.2.1 ⟨"www.youtube.com", "/embed/xyz9", []⟩
      (by decide) (by decide) (Or.inl rfl)
    rw [h]
    have h2 := extractVideoId_spec.2.2.2.2.1 "xyz9" (by decide) (by decide)
    have h3 : ("/embed/" ++ "xyz9" : String) = "/embed/xyz9" := by decide
    rw [h3] at h2
    exact h2
  · exact extractVideoId_spec.2.2.2.2.2 ⟨"vimeo.com", "/watch", [("v", "zzz")]⟩
      (by decide) (by decide)

/-! The chunk rewriter's response handling. -/

/-- Counterexample to C7 as stated: for an empty backend content array —
a response that is not text-typed — `message.content[0]` is `undefined`
and reading `.type` throws, so the rewriter does not return the original
chunk; the thrown error reaches the route's outer catch and terminates
the whole request, so a non-text backend response can be fatal. -/
theorem cleanChunk_empty_content_counterexample :
    cleanChunk [] "original" = none ∧ cleanChunk [] "original" ≠ some "original" :=
  ⟨rfl, by decide⟩

/-- Claim C7, amended: for every backend response whose content array is
nonempty, if the first content block is text-typed the rewriter returns
that block's text trimmed, otherwise it returns the original chunk
unchanged; either way some result is returned, so the chunk is not
dropped and the response is not fatal.  (The original claim fails for the
empty content array — see the counterexample.) -/
theorem cleanChunk_nonempty (b : ContentBlock) (rest : List ContentBlock)
    (chunk : String) :
    (∀ s, b = .text s → cleanChunk (b :: rest) chunk = some (jsTrim s)) ∧
    (b = .other → cleanChunk (b :: rest) chunk = some chunk) ∧
    (cleanChunk (b :: rest) chunk).isSome = true := by
  cases b with
  | text s =>
    refine ⟨?_, ?_, rfl⟩
    · intro s2 hs
      injection hs with h
      subst h
      rfl
    · intro h
      exact absurd h (by simp)
  | other =>
    refine ⟨?_, fun _ => rfl, rfl⟩
    intro s2 hs
    exact absurd hs (by simp)

/-- Witness for the amended C7 at concrete responses: a leading text block
(trim observed concretely) and a leading non-text block. -/
theorem cleanChunk_nonempty_witness :
    cleanChunk [.text "  hi  "] "orig" = some (jsTrim "  hi  ") ∧
    jsTrim "  hi  " = "hi" ∧
    cleanChunk [.other] "orig" = some "orig" :=
  ⟨(cleanChunk_nonempty (.text "  hi  ") [] "orig").1 "  hi  " rfl,
    by decide,
    (cleanChunk_nonempty .other [] "orig").2.1 rfl⟩

/-! The stream protocol's state machine. -/

theorem chunkLoop_accepts (rewriter : Nat → String → Bool → Bool → Bool → Except String String)
    (total : Nat) (htc : Bool) :
    ∀ (cs : List String) (i : Nat), i + cs.length = total →
      accepts (.streaming i total) (chunkLoop rewriter total htc i cs) = true := by
  intro cs
  induction cs with
  | nil =>
    intro i hi
    simp only [List.length_nil, Nat.add_zero] at hi
    rw [chunkLoop]
    simp [accepts, specStep, hi]
  | cons c cs ih =>
    intro i hi
    rw [chunkLoop]
    cases hrw : rewriter i c (i == 0) (i == total - 1) htc with
    | error msg =>
      simp [accepts, specStep]
    | ok t =>
      simp [accepts, specStep]
      exact ih (i + 1) (by simp only [List.length_cons] at hi; omega)

/-- Claim C8: for every settled outcome of the transcript and metadata
fetches and every rewriter behaviour, the event sequence the route emits
is accepted by the spec's state machine: `status`* → `meta`? → `info` →
(`progress` with 1-indexed current, then that chunk's `chunk` with
0-based index)×N in index order → exactly one terminal `done` or `error`,
with `error` possible at any point, and nothing after the terminal
event. -/
theorem runPOST_stream_valid (tr : Except FetchError FetchOk) (m : Option VideoMeta)
    (rewriter : Nat → String → Bool → Bool → Bool → Except String String) :
    accepts .leading (runPOST tr m rewriter) = true := by
  cases tr with
  | error e =>
    cases m with
    | none => simp [runPOST, accepts, specStep]
    | some mv => simp [runPOST, accepts, specStep]
  | ok r =>
    have hloop := chunkLoop_accepts rewriter
      (chunkWords (buildRawText r.items).text 3000).length (buildRawText r.items).hasTimecodes
      (chunkWords (buildRawText r.items).text 3000) 0 (by omega)
    by_cases hempty : r.items.isEmpty
    · cases m with
      | none =>
        cases hrm : r.meta with
        | none => simp [runPOST, hrm, hempty, accepts, specStep]
        | some mv => simp [runPOST, hrm, hempty, accepts, specStep]
      | some mv => simp [runPOST, hempty, accepts, specStep]
    · cases m with
      | none =>
        cases hrm : r.meta with
        | none =>
          simp only [runPOST, hrm, if_neg hempty]
          simp only [accepts, specStep]
          exact hloop
        | some mv =>
          simp only [runPOST, hrm, if_neg hempty]
          simp only [accepts, specStep]
          exact hloop
      | some mv =>
        simp only [runPOST, if_neg hempty]
        simp only [accepts, specStep]
        exact hloop

/-! Client-side reassembly. -/

theorem foldl_applyChunkEvent (es : List (Nat × String)) :
    ∀ (init : Nat → Option String) (j : Nat),
      (j ∈ es.map Prod.fst →
        es.foldl (fun a p => applyChunkEvent a p.1 p.2) init j = chunkArray es j) ∧
      (j ∉ es.map Prod.fst →
        es.foldl (fun a p => applyChunkEvent a p.1 p.2) init j = init j) := by
  induction es with
  | nil =>
    intro init j
    exact ⟨fun hmem => absurd hmem (by simp), fun _ => rfl⟩
  | cons f fs ih =>
    intro init j
    constructor
    · intro hmem
      rw [List.foldl_cons, chunkArray, List.foldl_cons]
      by_cases hjfs : j ∈ fs.map Prod.fst
      · rw [(ih _ j).1 hjfs, (ih _ j).1 hjfs]
      · have hjf : j = f.1 := by
          simp only [List.map_cons, List.mem_cons] at hmem
          tauto
        rw [(ih _ j).2 hjfs, (ih _ j).2 hjfs]
        simp [applyChunkEvent, hjf]
    · intro hmem
      have hjf : j ≠ f.1 := by
        simp only [List.map_cons, List.mem_cons] at hmem
        tauto
      have hjfs : j ∉ fs.map Prod.fst := by
        simp only [List.map_cons, List.mem_cons] at hmem
        tauto
      rw [List.foldl_cons, (ih _ j).2 hjfs]
      simp [applyChunkEvent, hjf]

theorem chunkArray_none_of_not_mem (es : List (Nat × String)) (j : Nat)
    (h : j ∉ es.map Prod.fst) : chunkArray es j = none :=
  (foldl_applyChunkEvent es _ j).2 h

theorem chunkArray_reverse (events : List (Nat × String))
    (h : (events.map Prod.fst).Nodup) :
    ∀ j, chunkArray events.reverse j = chunkArray events j := by
  induction events with
  | nil => intro j; rfl
  | cons e es ih =>
    intro j
    have hkey : e.1 ∉ es.map Prod.fst := by
      simp only [List.map_cons, List.nodup_cons] at h
      exact h.1
    have hnd : (es.map Prod.fst).Nodup := by
      simp only [List.map_cons, List.nodup_cons] at h
      exact h.2
    have hlhs : chunkArray (e :: es).reverse j =
        applyChunkEvent (chunkArray es.reverse) e.1 e.2 j := by
      rw [List.reverse_cons, chunkArray, List.foldl_append]
      rfl
    rw [hlhs]
    have hrhs : chunkArray (e :: es) j =
        es.foldl (fun a p => applyChunkEvent a p.1 p.2)
          (applyChunkEvent (fun _ => none) e.1 e.2) j := rfl
    rw [hrhs]
    by_cases hjes : j ∈ es.map Prod.fst
    · have hne : j ≠ e.1 := fun hh => hkey (hh ▸ hjes)
      rw [(foldl_applyChunkEvent es _ j).1 hjes]
      simp only [applyChunkEvent, if_neg hne]
      exact ih hnd j
    · have hrev : j ∉ (es.reverse).map Prod.fst := by
        intro hmem
        apply hjes
        rw [List.map_reverse, List.mem_reverse] at hmem
        exact hmem
      rw [(foldl_applyChunkEvent es _ j).2 hjes]
      simp only [applyChunkEvent]
      by_cases hje : j = e.1
      · rw [if_pos hje, if_pos hje]
      · rw [if_neg hje, if_neg hje]
        exact chunkArray_none_of_not_mem _ _ hrev

theorem arrayLen_foldl (l : List (Nat × String)) :
    ∀ a, l.foldl (fun m p => max m (p.1 + 1)) a = max a (arrayLen l) := by
  induction l with
  | nil => intro a; simp [arrayLen]
  | cons p t ih =>
    intro a
    have hal : arrayLen (p :: t) = max (p.1 + 1) (arrayLen t) := by
      show List.foldl (fun m q => max m (q.1 + 1)) (max 0 (p.1 + 1)) t = _
      rw [ih, Nat.zero_max]
    rw [List.foldl_cons, ih, hal, Nat.max_assoc]

theorem arrayLen_reverse (l : List (Nat × String)) :
    arrayLen l.reverse = arrayLen l := by
  induction l with
  | nil => rfl
  | cons p t ih =>
    have h1 : arrayLen ((p :: t).reverse) = max (arrayLen t.reverse) (p.1 + 1) := by
      rw [List.reverse_cons]
      show List.foldl (fun m q => max m (q.1 + 1)) 0 (t.reverse ++ [p]) = _
      rw [List.foldl_append]
      show max (List.foldl (fun m q => max m (q.1 + 1)) 0 t.reverse) (p.1 + 1) = _
      rfl
    have h2 : arrayLen (p :: t) = max (p.1 + 1) (arrayLen t) := by
      show List.foldl (fun m q => max m (q.1 + 1)) (max 0 (p.1 + 1)) t = _
      rw [arrayLen_foldl, Nat.zero_max]
    rw [h1, ih, h2, Nat.max_comm]

/-- Claim C9: for every list of `chunk` events with pairwise-distinct
indices (as the protocol emits — one `chunk` event per index), the
client's reassembly — sparse-array assignment by index, dropping absent
slots, joining with a blank line — produces the same final string when
the events are delivered in reverse index order as in forward order. -/
theorem reassemble_order_independent (events : List (Nat × String))
    (h : (events.map Prod.fst).Nodup) :
    reassemble events.reverse = reassemble events := by
  have harr : chunkArray events.reverse = chunkArray events :=
    funext (chunkArray_reverse events h)
  rw [reassemble, reassemble, harr, arrayLen_reverse]

/-- Witness for C9 at three concrete chunk events, with the reverse-order
delivery evaluated concretely. -/
theorem reassemble_order_independent_witness :
    (([((0 : Nat), "alpha"), (1, "beta"), (2, "gamma")] :
      List (Nat × String)).map Prod.fst).Nodup ∧
    reassemble ([((0 : Nat), "alpha"), (1, "beta"), (2, "gamma")] :
      List (Nat × String)).reverse =
      reassemble ([((0 : Nat), "alpha"), (1, "beta"), (2, "gamma")] :
        List (Nat × String)) ∧
    reassemble ([(2, "gamma"), (1, "beta"), ((0 : Nat), "alpha")] :
      List (Nat × String)) = "alpha\n\nbeta\n\ngamma" :=
  ⟨by decide,
    reassemble_order_independent [((0 : Nat), "alpha"), (1, "beta"), (2, "gamma")]
      (by decide),
    by decide⟩

end TranscriptTool
